import Mathlib

/-!
A verification development for the agent-loop client in
`src/wjh/chat/client/OpenRouterClient.cpp`.

The tool executors (`execute_bash`, `execute_read_file`, `execute_write_file`,
`execute_edit_file`) and the agent loop (`do_send_message`, `parse_response`)
are embedded as pure Lean functions.  Side effects are reified:

* the filesystem and the success of directory-creation / open / write
  operations become a `World` value threaded through the executors;
* the single line read from `stdin` at each confirmation prompt becomes the
  `answer` argument;
* the byte stream produced by the spawned shell command (successive `fgets`
  reads) becomes a list of chunks in `BashWorld`;
* the transport adapter becomes an oracle `Nat → TranspResult` giving the
  response to the i-th POST of one exchange;
* JSON decoding of the double-encoded tool-call `arguments` string (done by
  the external nlohmann library) becomes a parameter `jp : String → Option Json`,
  and tool dispatch a parameter `d : String → Json → String`;
* a C++ exception that nothing in `do_send_message` catches is modelled as a
  distinguished `thrown` outcome, and a loop that never terminates (the
  occurrence scan of `execute_edit_file` on an empty `old_string`) as `none`
  from a fuel-indexed model whose fuel is provably sufficient whenever the
  C++ loop terminates.

File contents and tool outputs are modelled as `List Char` (`Chars`).
-/

namespace OpenRouter

/-- Character list of a string literal; file contents and executor outputs are
modelled as `List Char`. -/
abbrev Chars := List Char

/-- Characters of a Lean string literal. -/
def str (s : String) : Chars := s.data

/-! ## read_file: line formatting (`std::format("{:>6}\t{}\n", line_num, line)`) -/

/-- Right-justify to width 6 with spaces, as `std::format "...:>6..."` does
(no truncation when already longer). -/
def rightJustify6 (s : Chars) : Chars := List.replicate (6 - s.length) ' ' ++ s

/-- One emitted line of `execute_read_file`: the 1-indexed line number
right-justified to width 6, a tab, the line, a newline. -/
def fmtLine (n : Int) (line : Chars) : Chars :=
  rightJustify6 (toString n).data ++ '\t' :: (line ++ ['\n'])

/-- The `getline` loop, fuel-indexed for structural recursion: each iteration
consumes at least one character, so fuel `s.length` is always sufficient
(`cppLinesAux_congr` below). -/
def cppLinesAux : Nat → Chars → List Chars
  | _, [] => []
  | 0, _ :: _ => []
  | fuel + 1, c :: rest =>
      (c :: rest).takeWhile (fun a => a ≠ '\n') ::
        cppLinesAux fuel (((c :: rest).dropWhile (fun a => a ≠ '\n')).drop 1)

/-- Successive `std::getline` results on the given character stream: a line is
the run of characters up to (not including) the next newline; the terminating
newline is consumed; at end-of-file with no characters read, `getline` fails,
so a trailing newline does not produce a final empty line. -/
def cppLines (s : Chars) : List Chars := cppLinesAux s.length s

/-! ## execute_bash -/

/-- The marker both `execute_bash` and `execute_read_file` append when output
passes 100,000 characters. -/
def truncationMarker : Chars := str "\n... [truncated at 100KB]"

/-- The `fgets`/append loop of `execute_bash` (lines 159-165): append each
chunk; as soon as the accumulated result exceeds 100,000 characters, append
the truncation marker and stop reading. -/
def bashCapture (acc : Chars) : List Chars → Chars
  | [] => acc
  | chunk :: rest =>
      let acc' := acc ++ chunk
      if 100000 < acc'.length then acc' ++ truncationMarker
      else bashCapture acc' rest

/-- The observable behaviour of the spawned command: whether `popen` succeeds,
the successive `fgets` reads, and the exit status. -/
structure BashWorld where
  popenOk : Bool
  chunks : List Chars
  exitCode : Nat

/-- Wellformedness of the `fgets` stream read through a 4096-byte buffer:
every read is nonempty and yields at most 4095 characters. -/
def BashWorld.wf (bw : BashWorld) : Prop := ∀ c ∈ bw.chunks, c ≠ [] ∧ c.length ≤ 4095

/-- The `"\n[exit code: <n>]"` suffix appended by `execute_bash`. -/
def exitSuffix (n : Nat) : Chars := str "\n[exit code: " ++ (toString n).data ++ [']']

/-- `execute_bash` (lines 138-172).  The first component records whether the
command was actually run (`popen` reached and successful). -/
def execute_bash (answer : Chars) (bw : BashWorld) : Bool × Chars :=
  match answer with
  | [] => (false, str "Command skipped by user")
  | c :: _ =>
    if c ≠ 'y' ∧ c ≠ 'Y' then (false, str "Command skipped by user")
    else if bw.popenOk then (true, bashCapture [] bw.chunks ++ exitSuffix bw.exitCode)
    else (false, str "Error: failed to execute command")

/-! ## World: filesystem and IO-success knobs -/

/-- The filesystem and the environment-determined success of the write-side
operations, per path: directory creation, opening for writing, and the final
stream write. -/
structure World where
  fs : String → Option Chars
  mkdirOk : String → Bool
  openWriteOk : String → Bool
  writeOk : String → Bool

/-- `std::filesystem::path(p).parent_path()` for the plain paths used here:
everything before the last `/`, empty when there is no `/`. -/
def parentOf (p : Chars) : Chars :=
  (((p.reverse).dropWhile (fun a => a ≠ '/')).drop 1).reverse

/-- `execute_write_file` (lines 222-267): confirmation gate, parent-directory
creation, open, write; on success the file holds exactly `content`.  A failed
write leaves the file truncated (the `ofstream` constructor truncates). -/
def execute_write_file (answer : Chars) (w : World) (path : String) (content : Chars) :
    World × Chars :=
  match answer with
  | [] => (w, str "Write skipped by user")
  | c :: _ =>
    if c ≠ 'y' ∧ c ≠ 'Y' then (w, str "Write skipped by user")
    else if parentOf path.data ≠ [] ∧ ¬ w.mkdirOk path then
      (w, str "Error: Cannot create directory: " ++ parentOf path.data)
    else if ¬ w.openWriteOk path then
      (w, str "Error: Cannot open file for writing: " ++ path.data)
    else if ¬ w.writeOk path then
      ({ w with fs := fun q => if q = path then some [] else w.fs q }, str "Error: Write failed")
    else
      ({ w with fs := fun q => if q = path then some content else w.fs q },
       str "Wrote " ++ (toString content.length).data ++ str " bytes to " ++ path.data)

/-! ## execute_read_file -/

/-- The `getline` loop of `execute_read_file` (lines 199-214): `lineNum` holds
the number of lines consumed so far, `linesRead` the number emitted; a line
with number below `offset` is skipped; once `limit` lines were emitted the
loop breaks; each emitted line is appended through `fmtLine`, and if the
result then exceeds 100,000 characters the truncation marker is appended and
the loop breaks. -/
def readAux (offset limit : Int) : List Chars → Int → Int → Chars → Chars
  | [], _, _, acc => acc
  | line :: rest, lineNum, linesRead, acc =>
    let ln := lineNum + 1
    if ln < offset then readAux offset limit rest ln linesRead acc
    else if limit ≤ linesRead then acc
    else
      let acc' := acc ++ fmtLine ln line
      if 100000 < acc'.length then acc' ++ truncationMarker
      else readAux offset limit rest ln (linesRead + 1) acc'

/-- `execute_read_file` (lines 174-220).  `offset` defaults to 1 and `limit`
to `std::numeric_limits<int>::max()` when the arguments are absent; an empty
loop result becomes the empty-or-past-end message. -/
def execute_read_file (w : World) (path : String) (offsetArg limitArg : Option Int) : Chars :=
  match w.fs path with
  | none => str "Error: Cannot open file: " ++ path.data
  | some contents =>
    let offset := offsetArg.getD 1
    let limit := limitArg.getD 2147483647
    let r := readAux offset limit (cppLines contents) 0 0 []
    if r = [] then str "File is empty or offset is past end" else r

/-! ## execute_edit_file -/

/-- The scan of `std::string::find(needle, pos)`, fuel-indexed for structural
recursion; fuel `contents.length + 1 - pos` is exact (`findFrom_unfold`
below). -/
def findFromAux (contents needle : Chars) : Nat → Nat → Option Nat
  | 0, _ => none
  | fuel + 1, pos =>
    if contents.length < pos then none
    else if needle.isPrefixOf (contents.drop pos) then some pos
    else if contents.length ≤ pos then none
    else findFromAux contents needle fuel (pos + 1)

/-- `std::string::find(needle, pos)`: the least position `p ≥ pos` at which
`needle` occurs in full (for an empty needle, `pos` itself whenever
`pos ≤ contents.length`); `none` for `npos`. -/
def findFrom (contents needle : Chars) (pos : Nat) : Option Nat :=
  findFromAux contents needle (contents.length + 1 - pos) pos

/-- The occurrence-counting loop of `execute_edit_file` (lines 290-299):
repeatedly `find` from `pos`, count the match, remember its position, resume
at its end.  The C++ loop has no fuel; the model returns `none` when the fuel
runs out, which (`countLoop_spec` below) happens exactly when the C++ loop
never terminates — possible only for an empty `old_string`, whose matches do
not advance `pos`. -/
def countLoop (contents needle : Chars) : Nat → Nat → Nat → Option Nat →
    Option (Nat × Option Nat)
  | 0, _, _, _ => none
  | fuel + 1, pos, count, foundPos =>
    match findFrom contents needle pos with
    | none => some (count, foundPos)
    | some p => countLoop contents needle fuel (p + needle.length) (count + 1) (some p)

/-- `execute_edit_file` (lines 269-341).  The result is `none` when the call
never returns (the counting loop diverges); otherwise the new `World`, the
textual result, and whether the confirmation prompt was reached. -/
def execute_edit_file (answer : Chars) (w : World) (path : String)
    (old_string new_string : Chars) : Option (World × Chars × Bool) :=
  match w.fs path with
  | none => some (w, str "Error: Cannot open file: " ++ path.data, false)
  | some contents =>
    match countLoop contents old_string (contents.length + 1) 0 0 none with
    | none => none
    | some (count, foundPos) =>
      if count = 0 then some (w, str "Error: old_string not found in " ++ path.data, false)
      else if 1 < count then
        some (w, str "Error: old_string is not unique in " ++ path.data ++ str " (found "
                 ++ (toString count).data ++ str " occurrences)", false)
      else
        match answer with
        | [] => some (w, str "Edit skipped by user", true)
        | c :: _ =>
          if c ≠ 'y' ∧ c ≠ 'Y' then some (w, str "Edit skipped by user", true)
          else
            match foundPos with
            | none => none
            | some fp =>
              let newContents :=
                contents.take fp ++ new_string ++ contents.drop (fp + old_string.length)
              if ¬ w.openWriteOk path then
                some (w, str "Error: Cannot write file: " ++ path.data, true)
              else if ¬ w.writeOk path then
                some ({ w with fs := fun q => if q = path then some [] else w.fs q },
                      str "Error: Write failed", true)
              else
                some ({ w with fs := fun q => if q = path then some newContents else w.fs q },
                      str "Applied edit to " ++ path.data, true)

/-- The match-position scan the claims describe, fuel-indexed for structural
recursion; fuel `s.length` is always sufficient (`specMatchesAux_congr`
below). -/
def specMatchesAux (needle : Chars) : Nat → Chars → Nat → List Nat
  | 0, _, _ => []
  | fuel + 1, s, i =>
    if needle ≠ [] ∧ needle.isPrefixOf s then
      i :: specMatchesAux needle fuel (s.drop needle.length) (i + needle.length)
    else
      match s with
      | [] => []
      | _ :: t => specMatchesAux needle fuel t (i + 1)

/-- The scan discipline the claims describe for `execute_edit_file`: the start
positions of the matches found when, after each match, the scan resumes at the
end of that match (greedy, non-overlapping, leftmost). -/
def specMatches (needle : Chars) (s : Chars) (i : Nat) : List Nat :=
  specMatchesAux needle s.length s i

/-- The numbered rendering the amended round-trip claims describe: each line
in turn through `fmtLine`, numbering from `n`. -/
def renderFrom : List Chars → Int → Chars
  | [], _ => []
  | l :: rest, n => fmtLine n l ++ renderFrom rest (n + 1)

/-! ## The agent loop (`do_send_message`) and the protocol codec -/

/-- A minimal JSON value type: the loop never inspects the parsed tool-call
arguments itself (it hands them to the dispatcher), so only the shape is
needed. -/
inductive Json
  | null
  | bool (b : Bool)
  | num (n : Int)
  | jstr (s : String)
  | arr (elems : List Json)
  | obj (fields : List (String × Json))

instance : Inhabited Json := ⟨.null⟩

/-- The `content` field of a response message: absent is `Option.none` one
level up; otherwise JSON null, a string, or any other JSON value (on which
`get<std::string>()` throws). -/
inductive JContent
  | null
  | str (s : String)
  | other
deriving DecidableEq

/-- One entry of the wire `tool_calls` array:
`{id, function: {name, arguments}}`, with `arguments` a JSON-encoded string
(the double encoding of the wire protocol). -/
structure ToolCallW where
  id : String
  name : String
  arguments : String
deriving DecidableEq

/-- `choices[0].message` of a wire response: an optional `content` field and
an optional `tool_calls` array. -/
structure RespMsg where
  content : Option JContent
  tool_calls : Option (List ToolCallW)
deriving DecidableEq

/-- Token usage, each field already defaulted to zero where the wire omitted
it (`u.value(key, 0u)`). -/
structure Usage where
  prompt_tokens : Nat
  completion_tokens : Nat
  total_tokens : Nat
deriving DecidableEq

/-- A parsed 200-response body: the `choices` array may be absent (`none`),
and each choice is represented by its `message`. -/
structure RespBody where
  choices : Option (List RespMsg)
  usage : Option Usage
deriving DecidableEq

/-- What one `send_api_request` produces: a transport/HTTP/JSON-parse error
(already folded into an error string, lines 501-551) or a parsed body. -/
inductive TranspResult
  | err (e : String)
  | ok (body : RespBody)
deriving DecidableEq

/-- Result of `parse_response`: an error, or the `ChatResponse` text plus
usage. -/
inductive ParseOut
  | error (msg : String)
  | ok (text : String) (usage : Option Usage)
deriving DecidableEq

/-- The display string `parse_response` synthesizes for a tool-call turn:
`"[Tool call] <name>: <raw-arguments>\n"` per call, in array order. -/
def toolCallDisplay : List ToolCallW → String
  | [] => ""
  | tc :: rest => "[Tool call] " ++ tc.name ++ ": " ++ tc.arguments ++ "\n" ++ toolCallDisplay rest

/-- `parse_response` (lines 432-499): missing or empty `choices` is an error;
a nonempty `tool_calls` array yields the synthesized display; otherwise
absent/null content is an error, other non-string content makes
`get<std::string>()` throw inside the surrounding try (caught, reported as a
parse failure), and string content is returned with the usage. -/
def parse_response (body : RespBody) : ParseOut :=
  match body.choices with
  | none => .error "Response missing choices array"
  | some [] => .error "Response missing choices array"
  | some (m :: _) =>
    let usage := body.usage
    match m.tool_calls with
    | some (tc :: tcs) => .ok (toolCallDisplay (tc :: tcs)) usage
    | _ =>
      match m.content with
      | none => .error "Response contains no text content"
      | some .null => .error "Response contains no text content"
      | some .other => .error "Failed to parse API response: type_error"
      | some (.str t) => .ok t usage

/-- A message of the loop-local working transcript. -/
inductive WireMsg
  | assistantRaw (m : RespMsg)
  | toolResult (tool_call_id : String) (content : String)
  | user (content : String)
deriving DecidableEq

/-- The synthetic user nudge of line 629-633. -/
def nudgeText : String := "Please use your tools or respond with text."

/-- The budget-exhaustion message of line 636-637. -/
def budgetText : String := "Agent loop exceeded 20 iterations"

/-- What nlohmann throws when `choice["message"]` is evaluated on the null
element that the unchecked `(*result)["choices"][0]` produced. -/
def typeErr305 : String :=
  "type_error.305: cannot use operator[] with a string argument with null"

/-- The uncaught exception from `nlohmann::json::parse` on a tool-call
`arguments` string that is not valid JSON (line 599-601). -/
def argParseError : String :=
  "json.exception.parse_error: tool-call arguments are not valid JSON"

/-- The uncaught exception from `message["content"].get<std::string>()` on
content that is neither null nor a string (line 616-620). -/
def contentTypeError : String :=
  "type_error: response content is neither null nor a string"

/-- The tool-execution pass of a tool-call turn (lines 593-611): for each call
in array order, parse its arguments string (`none` models the
`json.parse_error` exception, which nothing catches) and append one
tool-result message carrying the call's id and the dispatcher's output. -/
def runToolCalls (jp : String → Option Json) (d : String → Json → String) :
    List ToolCallW → Option (List WireMsg)
  | [] => some []
  | tc :: rest =>
    match jp tc.arguments with
    | none => none
    | some a =>
      match runToolCalls jp d rest with
      | none => none
      | some ms => some (.toolResult tc.id (d tc.name a) :: ms)

/-- What one loop iteration does after the POST, as a function of the
transport result (lines 577-633). -/
inductive StepAct
  | fail (e : String)
  | throwExc (e : String)
  | finalAnswer (p : ParseOut)
  | next (append : List WireMsg)
deriving DecidableEq

/-- One iteration body of `do_send_message` after `send_api_request`:
transport error → terminal error; missing or empty `choices` → the unchecked
`["choices"][0]["message"]` access throws; a nonempty `tool_calls` array →
execute the calls and continue with the assistant message and the tool
results appended; otherwise nonempty string content → final answer via
`parse_response`; otherwise append the assistant message when a `content`
field is present at all, append the nudge, and continue. -/
def loopStep (jp : String → Option Json) (d : String → Json → String)
    (t : TranspResult) : StepAct :=
  match t with
  | .err e => .fail e
  | .ok body =>
    match body.choices with
    | none => .throwExc typeErr305
    | some [] => .throwExc typeErr305
    | some (m :: _) =>
      match m.tool_calls with
      | some (tc :: tcs) =>
        (match runToolCalls jp d (tc :: tcs) with
         | none => .throwExc argParseError
         | some toolMsgs => .next (.assistantRaw m :: toolMsgs))
      | _ =>
        match m.content with
        | some (.str t0) =>
          if t0 = "" then .next [.assistantRaw m, .user nudgeText]
          else .finalAnswer (parse_response body)
        | some .null => .next [.assistantRaw m, .user nudgeText]
        | some .other => .throwExc contentTypeError
        | none => .next [.user nudgeText]

/-- Terminal outcome of one exchange: a successful `ChatResponse`, a terminal
error value, or an uncaught C++ exception escaping `do_send_message`. -/
inductive LoopResult
  | success (p : ParseOut)
  | failure (e : String)
  | thrown (e : String)
deriving DecidableEq

/-- The `for (int i = 0; i < 20; ++i)` loop of `do_send_message`: `fuel` is
the number of iterations still allowed (`20 - i` throughout), `i` the current
iteration index (used to address the transport oracle), `msgs` the working
transcript.  Returns the terminal result together with the number of model
round trips performed from this point. -/
def loopIter (jp : String → Option Json) (d : String → Json → String)
    (oracle : Nat → TranspResult) : Nat → Nat → List WireMsg → LoopResult × Nat
  | 0, _, _ => (.failure budgetText, 0)
  | fuel + 1, i, msgs =>
    match loopStep jp d (oracle i) with
    | .fail e => (.failure e, 1)
    | .throwExc e => (.thrown e, 1)
    | .finalAnswer p => (.success p, 1)
    | .next app =>
      let r := loopIter jp d oracle fuel (i + 1) (msgs ++ app)
      (r.1, r.2 + 1)

/-- `do_send_message` (lines 553-638): run the loop from iteration 0, with 20
iterations allowed, on the initial working transcript. -/
def do_send_message (jp : String → Option Json) (d : String → Json → String)
    (oracle : Nat → TranspResult) (init : List WireMsg) : LoopResult × Nat :=
  loopIter jp d oracle 20 0 init

/-- A JSON-decoding oracle standing in for `nlohmann::json::parse` on inputs
that are not valid JSON documents: it rejects its argument.  Used only in
developments whose every decoded string is such a non-JSON string. -/
def rejectingJsonParse : String → Option Json := fun _ => none

/-- A JSON-decoding oracle standing in for `nlohmann::json::parse` on valid
inputs: it accepts its argument.  Used only in developments where the decoded
value itself is irrelevant. -/
def acceptingJsonParse : String → Option Json := fun _ => some .null

/-- A dispatcher instantiation for concrete runs: a fixed output per tool
name. -/
def constDispatch : String → Json → String := fun n _ => "output of " ++ n

/-- The last element of a match list, or a fallback: the value of the C++
`found_pos` variable after scanning, given its value `fp` before. -/
def lastD (l : List Nat) (fp : Option Nat) : Option Nat :=
  match l.getLast? with
  | some x => some x
  | none => fp

/-- A `World` whose IO operations all succeed, over the given filesystem. -/
def allOk (fs : String → Option Chars) : World :=
  { fs := fs, mkdirOk := fun _ => true, openWriteOk := fun _ => true, writeOk := fun _ => true }

/-- Join lines with single newline separators and no trailing newline (used
to build concrete multi-line file contents). -/
def unlines : List Chars → Chars
  | [] => []
  | [l] => l
  | l :: l' :: rest => l ++ '\n' :: unlines (l' :: rest)

/-- An "unsuccessful" model response in the sense of the budget claim: it
carries further tool calls (all of whose argument strings decode as JSON
under `jp`), or empty content (no tool calls, and the content field absent,
JSON-null, or the empty string) — never a non-empty final text answer. -/
def unsuccessfulResp (jp : String → Option Json) (t : TranspResult) : Prop :=
  ∃ body, t = .ok body ∧ ∃ m rest, body.choices = some (m :: rest) ∧
    ((∃ tcs, m.tool_calls = some tcs ∧ tcs ≠ [] ∧ ∀ tc ∈ tcs, (jp tc.arguments).isSome)
     ∨ ((m.tool_calls = none ∨ m.tool_calls = some []) ∧
        (m.content = none ∨ m.content = some .null ∨ m.content = some (.str ""))))

/-- A response body with no `choices` field. -/
def noChoicesBody : RespBody := { choices := none, usage := none }

/-- A response body with an empty `choices` array. -/
def emptyChoicesBody : RespBody := { choices := some [], usage := none }

/-- A response message carrying one tool call with decodable arguments. -/
def tcMsg1 : RespMsg :=
  { content := some .null,
    tool_calls := some [{ id := "call_1", name := "bash", arguments := "args" }] }

/-- A transport oracle that always answers with `tcMsg1`. -/
def tcOracle1 : Nat → TranspResult :=
  fun _ => .ok { choices := some [tcMsg1], usage := none }

/-- A response message carrying one tool call whose arguments string is not
valid JSON. -/
def badArgsMsg : RespMsg :=
  { content := some .null,
    tool_calls := some [{ id := "id1", name := "bash", arguments := "oops" }] }

/-- A transport oracle that always answers with `badArgsMsg`. -/
def badArgsOracle : Nat → TranspResult :=
  fun _ => .ok { choices := some [badArgsMsg], usage := none }

/-- A second tool call with undecodable arguments, for a distinct concrete
run. -/
def badArgsMsg7 : RespMsg :=
  { content := some .null,
    tool_calls := some [{ id := "call_7", name := "read_file", arguments := "not-json" }] }

/-- A transport oracle that always answers with `badArgsMsg7`. -/
def badArgsOracle7 : Nat → TranspResult :=
  fun _ => .ok { choices := some [badArgsMsg7], usage := none }

/-- A transport oracle that always answers with empty string content. -/
def emptyContentOracle : Nat → TranspResult :=
  fun _ => .ok { choices := some [{ content := some (.str ""), tool_calls := none }],
                 usage := none }

/-- A response message with string content "hi" and an EMPTY tool-call
array. -/
def emptyTcMsg : RespMsg := { content := some (.str "hi"), tool_calls := some [] }

/-- The body carrying `emptyTcMsg`. -/
def emptyTcBody : RespBody := { choices := some [emptyTcMsg], usage := none }

/-- A transport oracle that always answers with `emptyTcBody`. -/
def emptyTcOracle : Nat → TranspResult := fun _ => .ok emptyTcBody

/-- Twenty-five full 4095-character reads: a feasible `fgets` stream whose
total (102,375 characters) exceeds the 100,000-character threshold. -/
def bigChunks : List Chars := List.replicate 25 (List.replicate 4095 'a')

/-- The command world producing `bigChunks` with exit code 0. -/
def bigBash : BashWorld := { popenOk := true, chunks := bigChunks, exitCode := 0 }

/-- A 100,000-character line (no newline): rendering it with its line-number
prefix already exceeds the read_file truncation threshold. -/
def bigLine : Chars := List.replicate 100000 'a'

/-- Twenty lines: nine one-character lines, the huge line as line 10, ten
more one-character lines. -/
def lines9 : List Chars := List.replicate 9 ['x'] ++ [bigLine] ++ List.replicate 10 ['x']

/-- The 20-line file contents built from `lines9`. -/
def contents9 : Chars := unlines lines9

/-- A world whose file "g" holds `contents9`. -/
def world9 : World := allOk (fun p => if p = "g" then some contents9 else none)

/-! ## Helper lemmas -/

theorem cppLinesAux_congr :
    ∀ (fuel fuel' : Nat) (s : Chars), s.length ≤ fuel → s.length ≤ fuel' →
      cppLinesAux fuel s = cppLinesAux fuel' s := by
  intro fuel
  induction fuel with
  | zero =>
    intro fuel' s hs _
    have : s = [] := List.length_eq_zero.mp (Nat.le_zero.mp hs)
    subst this
    cases fuel' <;> rfl
  | succ fuel ih =>
    intro fuel' s hs hs'
    match s, fuel' with
    | [], f => cases f <;> rfl
    | c :: rest, 0 => simp at hs'
    | c :: rest, fuel' + 1 =>
      simp only [cppLinesAux]
      have hlen : (((c :: rest).dropWhile (fun a => a ≠ '\n')).drop 1).length ≤ rest.length := by
        have h := (List.dropWhile_sublist (l := c :: rest)
          (p := fun a => decide (a ≠ '\n'))).length_le
        simp only [List.length_drop, List.length_cons] at h ⊢
        omega
      exact congrArg _ (ih fuel' _ (by simpa using Nat.le_trans hlen (by simpa using hs))
        (by simp only [List.length_cons] at hs'; omega))

/-- One-step unfolding of `cppLines` on a nonempty stream. -/
theorem cppLines_cons (c : Char) (rest : Chars) :
    cppLines (c :: rest) =
      (c :: rest).takeWhile (fun a => a ≠ '\n') ::
        cppLines (((c :: rest).dropWhile (fun a => a ≠ '\n')).drop 1) := by
  show cppLinesAux (rest.length + 1) (c :: rest) = _
  simp only [cppLinesAux]
  refine congrArg _ ?_
  have hlen : (((c :: rest).dropWhile (fun a => a ≠ '\n')).drop 1).length ≤ rest.length := by
    have h := (List.dropWhile_sublist (l := c :: rest)
      (p := fun a => decide (a ≠ '\n'))).length_le
    simp only [List.length_drop, List.length_cons] at h ⊢
    omega
  exact cppLinesAux_congr _ _ _ hlen le_rfl

theorem specMatchesAux_congr (needle : Chars) :
    ∀ (fuel fuel' : Nat) (s : Chars) (i : Nat), s.length ≤ fuel → s.length ≤ fuel' →
      specMatchesAux needle fuel s i = specMatchesAux needle fuel' s i := by
  intro fuel
  induction fuel with
  | zero =>
    intro fuel' s i hs _
    have : s = [] := List.length_eq_zero.mp (Nat.le_zero.mp hs)
    subst this
    cases fuel' with
    | zero => rfl
    | succ f =>
      simp only [specMatchesAux]
      by_cases hn : needle = [] <;> simp [hn]
  | succ fuel ih =>
    intro fuel' s i hs hs'
    match s, fuel' with
    | [], fuel' =>
      cases fuel' with
      | zero =>
        simp only [specMatchesAux]
        by_cases hn : needle = [] <;> simp [hn]
      | succ f =>
        simp only [specMatchesAux]
        by_cases hn : needle = [] <;> simp [hn]
    | c :: rest, 0 => simp at hs'
    | c :: rest, fuel' + 1 =>
      simp only [specMatchesAux]
      by_cases hcond : needle ≠ [] ∧ needle.isPrefixOf (c :: rest)
      · have hnlen : 0 < needle.length := List.length_pos.mpr hcond.1
        have hple : needle.length ≤ (c :: rest).length :=
          (List.isPrefixOf_iff_prefix.mp hcond.2).length_le
        simp only [if_pos hcond]
        refine congrArg _ (ih fuel' _ _ ?_ ?_) <;>
          simp only [List.length_drop, List.length_cons] at * <;> omega
      · simp only [if_neg hcond]
        exact ih fuel' rest (i + 1) (by simp only [List.length_cons] at hs; omega)
          (by simp only [List.length_cons] at hs'; omega)

/-- One-step unfolding of `specMatches`. -/
theorem specMatches_unfold (needle s : Chars) (i : Nat) :
    specMatches needle s i =
      if needle ≠ [] ∧ needle.isPrefixOf s then
        i :: specMatches needle (s.drop needle.length) (i + needle.length)
      else
        match s with
        | [] => []
        | _ :: t => specMatches needle t (i + 1) := by
  match s with
  | [] =>
    show specMatchesAux needle 0 [] i = _
    cases hn : needle with
    | nil => simp [specMatchesAux]
    | cons a l => simp [specMatchesAux, List.isPrefixOf]
  | c :: rest =>
    show specMatchesAux needle (rest.length + 1) (c :: rest) i = _
    simp only [specMatchesAux]
    by_cases hcond : needle ≠ [] ∧ needle.isPrefixOf (c :: rest)
    · have hnlen : 0 < needle.length := List.length_pos.mpr hcond.1
      have hple : needle.length ≤ (c :: rest).length :=
        (List.isPrefixOf_iff_prefix.mp hcond.2).length_le
      simp only [if_pos hcond]
      refine congrArg _ (specMatchesAux_congr needle _ _ _ _ ?_ le_rfl)
      simp only [List.length_drop, List.length_cons] at *
      omega
    · simp only [if_neg hcond]
      rfl

/-- One-step unfolding of `findFrom`, matching the C++ scan of
`std::string::find`. -/
theorem findFrom_unfold (contents needle : Chars) (pos : Nat) :
    findFrom contents needle pos =
      if contents.length < pos then none
      else if needle.isPrefixOf (contents.drop pos) then some pos
      else if contents.length ≤ pos then none
      else findFrom contents needle (pos + 1) := by
  unfold findFrom
  rcases Nat.lt_or_ge contents.length pos with h | h
  · have h0 : contents.length + 1 - pos = 0 := by omega
    rw [h0]
    simp [findFromAux, h]
  · have h1 : contents.length + 1 - pos = (contents.length - pos) + 1 := by omega
    rw [h1]
    simp only [findFromAux]
    have h2 : ¬ contents.length < pos := by omega
    simp only [if_neg h2]
    by_cases hp : needle.isPrefixOf (contents.drop pos)
    · simp [hp]
    · simp only [if_neg hp]
      by_cases hle : contents.length ≤ pos
      · simp [hle]
      · simp only [if_neg hle]
        have h3 : contents.length - pos = contents.length + 1 - (pos + 1) := by omega
        rw [h3]

theorem findFromAux_some (contents needle : Chars) :
    ∀ (fuel pos p : Nat), findFromAux contents needle fuel pos = some p →
      pos ≤ p ∧ needle.isPrefixOf (contents.drop p) ∧ p ≤ contents.length := by
  intro fuel
  induction fuel with
  | zero => intro pos p h; simp [findFromAux] at h
  | succ fuel ih =>
    intro pos p h
    simp only [findFromAux] at h
    by_cases h1 : contents.length < pos
    · simp [h1] at h
    · simp only [if_neg h1] at h
      by_cases h2 : needle.isPrefixOf (contents.drop pos)
      · simp only [if_pos h2, Option.some.injEq] at h
        subst h
        exact ⟨le_rfl, h2, by omega⟩
      · simp only [if_neg h2] at h
        by_cases h3 : contents.length ≤ pos
        · simp [h3] at h
        · simp only [if_neg h3] at h
          obtain ⟨ha, hb, hc⟩ := ih _ _ h
          exact ⟨by omega, hb, hc⟩

/-- A successful `find` result lies at or after the start position, matches
in full, and fits in the string. -/
theorem findFrom_some (contents needle : Chars) (pos p : Nat)
    (h : findFrom contents needle pos = some p) :
    pos ≤ p ∧ needle.isPrefixOf (contents.drop p) ∧ p ≤ contents.length :=
  findFromAux_some contents needle _ pos p h

theorem lastD_cons (a : Nat) (l : List Nat) (fp : Option Nat) :
    lastD (a :: l) fp = lastD l (some a) := by
  cases l with
  | nil => rfl
  | cons b t => simp [lastD, List.getLast?]

theorem lastD_none (l : List Nat) : lastD l none = l.getLast? := by
  unfold lastD
  cases l.getLast? <;> rfl

/-- The greedy match list from position `pos` agrees with the iterative
`find`-driven scan: no match from `pos` means the list is empty, and a first
match at `p` heads the list, the rest scanning from the end of that match. -/
theorem specMatches_eq_findFrom (contents needle : Chars) (hn : needle ≠ []) :
    ∀ (k pos : Nat), contents.length + 1 - pos ≤ k →
      specMatches needle (contents.drop pos) pos =
        (match findFrom contents needle pos with
         | none => []
         | some p =>
             p :: specMatches needle (contents.drop (p + needle.length)) (p + needle.length)) := by
  intro k
  induction k with
  | zero =>
    intro pos hk
    have hpos : contents.length < pos := by omega
    have hdrop : contents.drop pos = [] := List.drop_eq_nil_of_le (by omega)
    have hfind : findFrom contents needle pos = none := by
      rw [findFrom_unfold]
      simp [hpos]
    rw [hfind, hdrop, specMatches_unfold]
    simp [hn, List.isPrefixOf_iff_prefix, List.prefix_nil]
  | succ k ih =>
    intro pos hk
    rw [findFrom_unfold]
    by_cases hpos : contents.length < pos
    · have hdrop : contents.drop pos = [] := List.drop_eq_nil_of_le (by omega)
      rw [hdrop, specMatches_unfold]
      simp [hpos, hn, List.isPrefixOf_iff_prefix, List.prefix_nil]
    · simp only [if_neg hpos]
      by_cases hpre : needle.isPrefixOf (contents.drop pos)
      · simp only [if_pos hpre]
        rw [specMatches_unfold]
        rw [if_pos ⟨hn, hpre⟩, List.drop_drop]
      · simp only [if_neg hpre]
        by_cases hle : contents.length ≤ pos
        · have hdrop : contents.drop pos = [] := List.drop_eq_nil_of_le hle
          rw [hdrop, specMatches_unfold]
          simp [hn, List.isPrefixOf_iff_prefix, List.prefix_nil, hle]
        · simp only [if_neg hle]
          have hlt : pos < contents.length := by omega
          rw [specMatches_unfold]
          have hne : contents.drop pos ≠ [] := by
        -- nonempty since pos < length
            intro hnil
            have := List.drop_eq_nil_iff.mp hnil
            omega
          rw [if_neg (by
            intro hcond
            exact hpre hcond.2)]
          obtain ⟨c, t, hct⟩ := List.exists_cons_of_ne_nil hne
          rw [hct]
          have ht : t = contents.drop (pos + 1) := by
            have : (contents.drop pos).tail = contents.drop (pos + 1) := by
              rw [List.tail_drop]
            rw [hct] at this
            simpa using this
          rw [ht]
          exact ih (pos + 1) (by omega)

/-- The fuel-indexed model of the counting loop terminates and computes the
greedy non-overlapping match count (with the last match position), whenever
the needle is nonempty and the fuel covers the remaining scan. -/
theorem countLoop_spec (contents needle : Chars) (hn : needle ≠ []) :
    ∀ (fuel pos count : Nat) (fp : Option Nat),
      contents.length + 1 - pos ≤ fuel → 1 ≤ fuel →
      countLoop contents needle fuel pos count fp =
        some (count + (specMatches needle (contents.drop pos) pos).length,
              lastD (specMatches needle (contents.drop pos) pos) fp) := by
  intro fuel
  induction fuel with
  | zero => intro pos count fp _ h1; omega
  | succ fuel ih =>
    intro pos count fp hfuel _
    simp only [countLoop]
    cases hfind : findFrom contents needle pos with
    | none =>
      rw [specMatches_eq_findFrom contents needle hn (contents.length + 1 - pos) pos le_rfl,
        hfind]
      simp [lastD]
    | some p =>
      obtain ⟨hpp, hpre, hple⟩ := findFrom_some contents needle pos p hfind
      have hnlen : 0 < needle.length := List.length_pos.mpr hn
      have hfit : p + needle.length ≤ contents.length := by
        have := (List.isPrefixOf_iff_prefix.mp hpre).length_le
        simp only [List.length_drop] at this
        omega
      show countLoop contents needle fuel (p + needle.length) (count + 1) (some p) = _
      rw [ih (p + needle.length) (count + 1) (some p) (by omega) (by omega)]
      rw [specMatches_eq_findFrom contents needle hn (contents.length + 1 - pos) pos le_rfl,
        hfind]
      simp only [List.length_cons, lastD_cons]
      refine congrArg _ ?_
      refine congrArg₂ _ ?_ rfl
      omega

/-- The occurrence scan of `execute_edit_file`, at its call site (fuel
`contents.length + 1`, start position 0): for a nonempty `old_string` it
terminates with the greedy non-overlapping count and the position of the last
match. -/
theorem edit_count (contents needle : Chars) (hn : needle ≠ []) :
    countLoop contents needle (contents.length + 1) 0 0 none =
      some ((specMatches needle contents 0).length, (specMatches needle contents 0).getLast?) := by
  have h := countLoop_spec contents needle hn (contents.length + 1) 0 0 none (by omega) (by omega)
  simpa [lastD_none] using h

end OpenRouter

namespace OpenRouter

theorem runToolCalls_total (jp : String → Option Json) (d : String → Json → String) :
    ∀ tcs : List ToolCallW, (∀ tc ∈ tcs, (jp tc.arguments).isSome) →
      runToolCalls jp d tcs =
        some (tcs.map fun tc => .toolResult tc.id (d tc.name ((jp tc.arguments).getD .null))) := by
  intro tcs
  induction tcs with
  | nil => intro _; rfl
  | cons tc rest ih =>
    intro h
    have htc := h tc (by simp)
    obtain ⟨a, ha⟩ := Option.isSome_iff_exists.mp htc
    simp only [runToolCalls, ha]
    rw [ih (fun x hx => h x (by simp [hx]))]
    simp [ha]

theorem loopIter_budget (jp : String → Option Json) (d : String → Json → String)
    (oracle : Nat → TranspResult) :
    ∀ (fuel i : Nat) (msgs : List WireMsg),
      (∀ j, i ≤ j → j < i + fuel → unsuccessfulResp jp (oracle j)) →
      loopIter jp d oracle fuel i msgs = (.failure budgetText, fuel) := by
  intro fuel
  induction fuel with
  | zero => intro i msgs _; rfl
  | succ fuel ih =>
    intro i msgs h
    obtain ⟨body, hb, m, rest, hch, hcase⟩ := h i le_rfl (by omega)
    have hstep : ∃ app, loopStep jp d (oracle i) = .next app := by
      rcases hcase with ⟨tcs, htc, hne, hjp⟩ | ⟨htc, hcont⟩
      · obtain ⟨tc0, tcs', rfl⟩ := List.exists_cons_of_ne_nil hne
        rw [hb]
        simp only [loopStep, hch, htc]
        rw [runToolCalls_total jp d _ hjp]
        exact ⟨_, rfl⟩
      · rw [hb]
        simp only [loopStep, hch]
        rcases htc with htc | htc <;> rw [htc] <;>
          rcases hcont with hc | hc | hc <;> rw [hc] <;> simp
    obtain ⟨app, happ⟩ := hstep
    simp only [loopIter, happ]
    rw [ih (i + 1) (msgs ++ app) (fun j hj hj2 => h j (by omega) (by omega))]

end OpenRouter


namespace OpenRouter

/-- Claim C2: the claim says a transport-accepted response whose body lacks a
`choices` array (or has an empty one) makes `do_send_message` fail immediately
with a terminal protocol error.  Evaluating the model at the failing inputs:
the loop performs one round trip and then the unchecked
`(*result)["choices"][0]["message"]` access throws an nlohmann type error that
nothing catches — while `parse_response` on the very same body would produce
the intended "Response missing choices array" protocol error, showing the
check exists in the codec but is bypassed by the loop. -/
theorem c2_missing_choices_throws :
    (do_send_message acceptingJsonParse constDispatch (fun _ => .ok noChoicesBody) [] =
        (.thrown typeErr305, 1)
      ∧ parse_response noChoicesBody = .error "Response missing choices array")
    ∧ (do_send_message acceptingJsonParse constDispatch (fun _ => .ok emptyChoicesBody) [] =
        (.thrown typeErr305, 1)
      ∧ parse_response emptyChoicesBody = .error "Response missing choices array") :=
  ⟨⟨by decide, rfl⟩, ⟨by decide, rfl⟩⟩

/-- Claim C4 (amended): for every transport oracle whose first 20 responses
each carry further tool calls (with arguments that decode as JSON) or empty
content — never a non-empty final text answer — `do_send_message` performs
exactly 20 model round trips and then fails with the budget-exhaustion error
"Agent loop exceeded 20 iterations", performing no 21st request. -/
theorem c4_budget_exhaustion (jp : String → Option Json) (d : String → Json → String)
    (oracle : Nat → TranspResult) (init : List WireMsg)
    (h : ∀ j, j < 20 → unsuccessfulResp jp (oracle j)) :
    do_send_message jp d oracle init = (.failure budgetText, 20) := by
  unfold do_send_message
  exact loopIter_budget jp d oracle 20 0 init (fun j _ hj => h j (by omega))

/-- Witness for C4: an oracle that always answers with empty string content
satisfies the hypothesis, and the exchange fails with the budget error after
exactly 20 round trips. -/
theorem c4_witness :
    (∀ j, j < 20 → unsuccessfulResp acceptingJsonParse (emptyContentOracle j))
    ∧ do_send_message acceptingJsonParse constDispatch emptyContentOracle [] =
        (.failure budgetText, 20) := by
  have hresp : ∀ j, j < 20 → unsuccessfulResp acceptingJsonParse (emptyContentOracle j) :=
    fun _ _ => ⟨_, rfl, _, [], rfl, Or.inr ⟨Or.inl rfl, Or.inr (Or.inr rfl)⟩⟩
  exact ⟨hresp, c4_budget_exhaustion _ _ _ _ hresp⟩

/-- Counterexample to C4 as stated: a response that carries a tool call whose
arguments string is not valid JSON still "carries further tool calls", yet
the exchange aborts after ONE round trip with the uncaught
`nlohmann::json::parse` exception instead of performing 20 round trips and
failing with the budget error. -/
theorem c4_counterexample :
    do_send_message rejectingJsonParse constDispatch badArgsOracle [] =
        (.thrown argParseError, 1)
    ∧ do_send_message rejectingJsonParse constDispatch badArgsOracle [] ≠
        (.failure budgetText, 20) :=
  ⟨by decide, by decide⟩

/-- Claim C5 (amended): on a tool-call turn all of whose argument strings
decode as JSON, the loop appends — after the verbatim assistant message —
exactly one tool-result message per tool call, carrying that call's id, in
the same relative order as the calls, and only then proceeds to the next
iteration (the next model request). -/
theorem c5_one_result_per_call (jp : String → Option Json) (d : String → Json → String)
    (oracle : Nat → TranspResult) (fuel i : Nat) (msgs : List WireMsg)
    (m : RespMsg) (rest : List RespMsg) (usage : Option Usage) (tcs : List ToolCallW)
    (hb : oracle i = .ok { choices := some (m :: rest), usage := usage })
    (htc : m.tool_calls = some tcs) (hne : tcs ≠ [])
    (hjp : ∀ tc ∈ tcs, (jp tc.arguments).isSome) :
    runToolCalls jp d tcs =
      some (tcs.map fun tc => .toolResult tc.id (d tc.name ((jp tc.arguments).getD .null)))
    ∧ loopIter jp d oracle (fuel + 1) i msgs =
        (let r := loopIter jp d oracle fuel (i + 1)
            (msgs ++ .assistantRaw m ::
              tcs.map fun tc => .toolResult tc.id (d tc.name ((jp tc.arguments).getD .null)));
         (r.1, r.2 + 1)) := by
  refine ⟨runToolCalls_total jp d tcs hjp, ?_⟩
  obtain ⟨tc0, tcs', rfl⟩ := List.exists_cons_of_ne_nil hne
  simp only [loopIter, hb, loopStep, htc]
  rw [runToolCalls_total jp d _ hjp]

/-- Witness for C5: a concrete single-call tool turn with decodable
arguments; the transcript grows by the assistant message and exactly one
tool result carrying the call's id, before the next iteration. -/
theorem c5_witness :
    (tcOracle1 0 = .ok { choices := some [tcMsg1], usage := none }
      ∧ tcMsg1.tool_calls = some [{ id := "call_1", name := "bash", arguments := "args" }]
      ∧ (∀ tc ∈ [({ id := "call_1", name := "bash", arguments := "args" } : ToolCallW)],
          (acceptingJsonParse tc.arguments).isSome))
    ∧ loopIter acceptingJsonParse constDispatch tcOracle1 20 0 [] =
        (let r := loopIter acceptingJsonParse constDispatch tcOracle1 19 1
            ([] ++ .assistantRaw tcMsg1 ::
              [({ id := "call_1", name := "bash", arguments := "args" } : ToolCallW)].map
                fun tc => .toolResult tc.id (constDispatch tc.name
                  ((acceptingJsonParse tc.arguments).getD .null)));
         (r.1, r.2 + 1)) := by
  refine ⟨⟨rfl, rfl, by decide⟩, ?_⟩
  exact (c5_one_result_per_call acceptingJsonParse constDispatch tcOracle1 19 0 []
    tcMsg1 [] none _ rfl rfl (by decide) (by decide)).2

/-- Counterexample to C5 as stated: a tool-call turn whose single call has a
non-JSON arguments string produces no tool-result message at all — the
argument decode throws and the exchange dies after one round trip — so it is
not the case that every tool-call turn appends one result per call. -/
theorem c5_counterexample :
    runToolCalls rejectingJsonParse constDispatch
      [{ id := "call_7", name := "read_file", arguments := "not-json" }] = none
    ∧ do_send_message rejectingJsonParse constDispatch badArgsOracle7 [] =
        (.thrown argParseError, 1) :=
  ⟨rfl, by decide⟩

end OpenRouter

namespace OpenRouter

/-- Claim C7: a `tool_calls` field holding an empty array is never treated as
a tool-call turn.  `parse_response` gives the same result as if the field
were absent, and one loop iteration on such a response takes exactly the
text-content paths: final answer on nonempty string content; otherwise the
assistant message (present content field) and the nudge are appended and the
loop continues. -/
theorem c7_empty_array_falls_through (jp : String → Option Json) (d : String → Json → String)
    (oracle : Nat → TranspResult) (fuel i : Nat) (msgs : List WireMsg)
    (m : RespMsg) (rest : List RespMsg) (usage : Option Usage)
    (hm : m.tool_calls = some [])
    (hbody : oracle i = .ok { choices := some (m :: rest), usage := usage }) :
    parse_response { choices := some (m :: rest), usage := usage } =
      parse_response { choices := some ({ m with tool_calls := none } :: rest), usage := usage }
    ∧ (∀ t0, m.content = some (.str t0) → t0 ≠ "" →
        loopIter jp d oracle (fuel + 1) i msgs =
          (.success (parse_response { choices := some (m :: rest), usage := usage }), 1))
    ∧ ((m.content = some .null ∨ m.content = some (.str "")) →
        loopIter jp d oracle (fuel + 1) i msgs =
          (let r := loopIter jp d oracle fuel (i + 1) (msgs ++ [.assistantRaw m, .user nudgeText]);
           (r.1, r.2 + 1)))
    ∧ (m.content = none →
        loopIter jp d oracle (fuel + 1) i msgs =
          (let r := loopIter jp d oracle fuel (i + 1) (msgs ++ [.user nudgeText]);
           (r.1, r.2 + 1))) := by
  refine ⟨?_, ?_, ?_, ?_⟩
  · simp only [parse_response, hm]
  · intro t0 hc hne
    simp only [loopIter, hbody, loopStep, hm, hc, if_neg hne]
  · intro hc
    rcases hc with hc | hc
    · simp only [loopIter, hbody, loopStep, hm, hc]
    · simp only [loopIter, hbody, loopStep, hm, hc]
      simp
  · intro hc
    simp only [loopIter, hbody, loopStep, hm, hc]

/-- Witness for C7: a concrete response with `tool_calls := []` and text
content "hi" parses like the same response without the field, and the loop
returns it as the final answer after one round trip. -/
theorem c7_witness :
    (emptyTcMsg.tool_calls = some [] ∧ emptyTcOracle 0 = .ok emptyTcBody)
    ∧ parse_response emptyTcBody =
        parse_response { choices := some [{ emptyTcMsg with tool_calls := none }],
                         usage := none }
    ∧ loopIter acceptingJsonParse constDispatch emptyTcOracle 20 0 [] =
        (.success (parse_response emptyTcBody), 1) := by
  refine ⟨⟨rfl, rfl⟩, ?_, ?_⟩
  · exact (c7_empty_array_falls_through acceptingJsonParse constDispatch emptyTcOracle
      19 0 [] emptyTcMsg [] none rfl rfl).1
  · exact (c7_empty_array_falls_through acceptingJsonParse constDispatch emptyTcOracle
      19 0 [] emptyTcMsg [] none rfl rfl).2.1 "hi" rfl (by decide)

end OpenRouter

namespace OpenRouter

/-- Claim C8: for every confirmation prompt (bash, write_file, edit_file) the
read line is affirmative iff it is non-empty and its first character is 'y'
or 'Y'.  Affirmative lines make each executor behave exactly as the canonical
"y" answer; any other line makes `execute_bash` return "Command skipped by
user" without executing the command, `execute_write_file` return "Write
skipped by user" leaving the world unchanged, and `execute_edit_file` (at its
prompt, i.e. on a unique occurrence) return "Edit skipped by user" leaving the
world unchanged. -/
theorem c8_gate_criterion (answer : Chars) :
    ((answer.head? = some 'y' ∨ answer.head? = some 'Y') →
       (∀ bw, execute_bash answer bw = execute_bash ['y'] bw)
     ∧ (∀ w path content, execute_write_file answer w path content =
          execute_write_file ['y'] w path content)
     ∧ (∀ w path o n, execute_edit_file answer w path o n =
          execute_edit_file ['y'] w path o n))
    ∧ (¬ (answer.head? = some 'y' ∨ answer.head? = some 'Y') →
       (∀ bw, execute_bash answer bw = (false, str "Command skipped by user"))
     ∧ (∀ w path content, execute_write_file answer w path content =
          (w, str "Write skipped by user"))
     ∧ (∀ w path o n contents, w.fs path = some contents → o ≠ [] →
          (specMatches o contents 0).length = 1 →
          execute_edit_file answer w path o n = some (w, str "Edit skipped by user", true))) := by
  cases answer with
  | nil =>
    constructor
    · intro hA
      simp at hA
    · intro _
      refine ⟨fun bw => rfl, fun w path content => rfl,
        fun w path o n contents hfs ho hcount => ?_⟩
      have hcl := edit_count contents o ho
      simp only [execute_edit_file, hfs, hcl, hcount]
      simp
  | cons c cs =>
    constructor
    · intro hA
      have hc : ¬ (c ≠ 'y' ∧ c ≠ 'Y') := by
        rcases hA with h | h <;> simp at h <;> simp [h]
      refine ⟨fun bw => ?_, fun w path content => ?_, fun w path o n => ?_⟩
      · simp [execute_bash, hc]
      · simp [execute_write_file, hc]
      · simp only [execute_edit_file, if_neg hc,
          if_neg (show ¬(('y' : Char) ≠ 'y' ∧ ('y' : Char) ≠ 'Y') by simp)]
    · intro hA
      have hc : c ≠ 'y' ∧ c ≠ 'Y' := by
        constructor <;> rintro rfl
        · exact hA (Or.inl rfl)
        · exact hA (Or.inr rfl)
      refine ⟨fun bw => ?_, fun w path content => ?_,
        fun w path o n contents hfs ho hcount => ?_⟩
      · simp [execute_bash, hc]
      · simp [execute_write_file, hc]
      · have hcl := edit_count contents o ho
        simp only [execute_edit_file, hfs, hcl, hcount]
        simp [hc]

end OpenRouter

namespace OpenRouter

/-- Witness for C8: the line "no" is not affirmative and makes `execute_bash`
skip without executing; the line "YES" is affirmative (first character 'Y')
and makes `execute_bash` behave as the canonical "y" answer. -/
theorem c8_witness :
    (¬ ((str "no").head? = some 'y' ∨ (str "no").head? = some 'Y')
      ∧ execute_bash (str "no") { popenOk := true, chunks := [str "hi"], exitCode := 0 } =
          (false, str "Command skipped by user"))
    ∧ (((str "YES").head? = some 'y' ∨ (str "YES").head? = some 'Y')
      ∧ execute_bash (str "YES") { popenOk := true, chunks := [str "hi"], exitCode := 0 } =
          execute_bash ['y'] { popenOk := true, chunks := [str "hi"], exitCode := 0 }) := by
  refine ⟨⟨by decide, ?_⟩, ⟨by decide, ?_⟩⟩
  · exact ((c8_gate_criterion (str "no")).2 (by decide)).1 _
  · exact ((c8_gate_criterion (str "YES")).1 (by decide)).1 _

end OpenRouter

namespace OpenRouter

theorem bashCapture_fits :
    ∀ (chunks : List Chars) (acc : Chars),
      acc.length + chunks.flatten.length ≤ 100000 →
      bashCapture acc chunks = acc ++ chunks.flatten := by
  intro chunks
  induction chunks with
  | nil => intro acc _; simp [bashCapture]
  | cons chunk rest ih =>
    intro acc h
    simp only [List.flatten_cons, List.length_append] at h
    simp only [bashCapture]
    rw [if_neg (by simp only [List.length_append]; omega)]
    rw [ih (acc ++ chunk) (by simp only [List.length_append]; omega)]
    simp [List.append_assoc]

theorem bashCapture_prefix :
    ∀ (pre rest : List Chars) (acc : Chars),
      acc.length + pre.flatten.length ≤ 100000 →
      bashCapture acc (pre ++ rest) = bashCapture (acc ++ pre.flatten) rest := by
  intro pre
  induction pre with
  | nil => intro rest acc _; simp
  | cons chunk p ih =>
    intro rest acc h
    simp only [List.flatten_cons, List.length_append] at h
    simp only [List.cons_append, bashCapture]
    rw [if_neg (by simp only [List.length_append]; omega)]
    simp only [List.append_eq]
    rw [ih rest (acc ++ chunk) (by simp only [List.length_append]; omega)]
    simp [List.append_assoc]

theorem bashCapture_overflow :
    ∀ (chunks : List Chars) (acc : Chars),
      acc.length ≤ 100000 → 100000 < acc.length + chunks.flatten.length →
      ∃ k, 1 ≤ k ∧ k ≤ chunks.length ∧
        bashCapture acc chunks = (acc ++ (chunks.take k).flatten) ++ truncationMarker ∧
        100000 < acc.length + ((chunks.take k).flatten).length ∧
        ∀ j < k, acc.length + ((chunks.take j).flatten).length ≤ 100000 := by
  intro chunks
  induction chunks with
  | nil => intro acc h1 h2; simp at h2; omega
  | cons chunk rest ih =>
    intro acc h1 h2
    by_cases hov : 100000 < (acc ++ chunk).length
    · refine ⟨1, le_rfl, by simp, ?_, ?_, ?_⟩
      · simp only [bashCapture, if_pos hov]
        simp
      · simp only [List.take_succ_cons, List.take_zero, List.flatten_cons, List.flatten_nil,
          List.append_nil]
        simpa [List.length_append] using hov
      · intro j hj
        have : j = 0 := by omega
        subst this
        simpa using h1
    · simp only [bashCapture, if_neg hov]
      simp only [List.length_append] at hov
      obtain ⟨k, hk1, hklen, heq, hbig, hsmall⟩ := ih (acc ++ chunk)
        (by simp only [List.length_append]; omega)
        (by simp only [List.flatten_cons, List.length_append] at h2 ⊢; omega)
      refine ⟨k + 1, by omega, by simp only [List.length_cons]; omega, ?_, ?_, ?_⟩
      · rw [heq]
        simp [List.take_succ_cons, List.append_assoc]
      · simp only [List.take_succ_cons, List.flatten_cons, List.length_append] at *
        omega
      · intro j hj
        cases j with
        | zero => simpa using h1
        | succ j' =>
          have := hsmall j' (by omega)
          simp only [List.take_succ_cons, List.flatten_cons, List.length_append] at *
          omega

theorem join_replicate_length (nreps : Nat) (c : Chars) :
    ((List.replicate nreps c).flatten).length = nreps * c.length := by
  induction nreps with
  | zero => simp
  | succ m ih =>
    simp only [List.replicate_succ, List.flatten_cons, List.length_append, ih, Nat.succ_mul]
    omega

theorem bashCapture_single (acc chunk : Chars) (h : 100000 < (acc ++ chunk).length) :
    bashCapture acc [chunk] = (acc ++ chunk) ++ truncationMarker := by
  simp only [bashCapture]
  rw [if_pos h]

end OpenRouter

namespace OpenRouter

/-- Claim C6 (amended): for every affirmatively confirmed command that can be
launched, the result is the captured output followed by "[exit code: n]"
regardless of truncation; when the total output is at most 100,000 characters
everything is captured (no marker); when it exceeds 100,000 characters,
capture stops at the end of the FIRST read chunk that brings the output above
100,000 characters (so the captured part may exceed 100,000 by up to one
chunk) and the "... [truncated at 100KB]" marker is appended there. -/
theorem c6_bash_truncation (answer : Chars) (bw : BashWorld)
    (haff : answer.head? = some 'y' ∨ answer.head? = some 'Y')
    (hpopen : bw.popenOk = true) :
    (execute_bash answer bw).2 = bashCapture [] bw.chunks ++ exitSuffix bw.exitCode
    ∧ (bw.chunks.flatten.length ≤ 100000 → bashCapture [] bw.chunks = bw.chunks.flatten)
    ∧ (100000 < bw.chunks.flatten.length →
        ∃ k, 1 ≤ k ∧ k ≤ bw.chunks.length ∧
          bashCapture [] bw.chunks = (bw.chunks.take k).flatten ++ truncationMarker ∧
          100000 < ((bw.chunks.take k).flatten).length ∧
          ∀ j < k, ((bw.chunks.take j).flatten).length ≤ 100000) := by
  refine ⟨?_, fun h => bashCapture_fits _ [] (by simpa using h), fun h => ?_⟩
  · obtain ⟨c, cs, rfl⟩ : ∃ c cs, answer = c :: cs := by
      cases answer with
      | nil => simp at haff
      | cons c cs => exact ⟨c, cs, rfl⟩
    have hc : ¬ (c ≠ 'y' ∧ c ≠ 'Y') := by
      rcases haff with h | h <;> simp at h <;> simp [h]
    simp [execute_bash, hc, hpopen]
  · obtain ⟨k, hk1, hklen, heq, hbig, hsmall⟩ :=
      bashCapture_overflow bw.chunks [] (by simp) (by simpa using h)
    exact ⟨k, hk1, hklen, by simpa using heq, by simpa using hbig,
      fun j hj => by simpa using hsmall j hj⟩

/-- Witness for C6: a tiny two-character command output with the "y" answer;
everything is captured and the exit-code suffix appended. -/
theorem c6_witness :
    ((['y'] : Chars).head? = some 'y' ∨ (['y'] : Chars).head? = some 'Y')
    ∧ (BashWorld.popenOk { popenOk := true, chunks := [str "ab"], exitCode := 3 } = true)
    ∧ (execute_bash ['y'] { popenOk := true, chunks := [str "ab"], exitCode := 3 }).2 =
        bashCapture [] [str "ab"] ++ exitSuffix 3
    ∧ (([str "ab"] : List Chars).flatten.length ≤ 100000 →
        bashCapture [] [str "ab"] = ([str "ab"] : List Chars).flatten) := by
  refine ⟨Or.inl rfl, rfl, ?_, ?_⟩
  · exact (c6_bash_truncation ['y']
      { popenOk := true, chunks := [str "ab"], exitCode := 3 } (Or.inl rfl) rfl).1
  · exact (c6_bash_truncation ['y']
      { popenOk := true, chunks := [str "ab"], exitCode := 3 } (Or.inl rfl) rfl).2.1

/-- Counterexample to C6 as stated: 25 full 4095-character reads (a feasible
fgets stream) total 102,375 characters; the captured output is NOT truncated
at 100,000 characters — the whole 25th chunk is kept, so the result has
102,375 + 25 (marker) + 15 (exit suffix) = 102,415 characters, where
truncation at exactly 100,000 characters would give 100,040 of them. -/
theorem c6_counterexample :
    BashWorld.wf bigBash
    ∧ (execute_bash ['y'] bigBash).2.length = 102415
    ∧ (execute_bash ['y'] bigBash).2 ≠
        bigChunks.flatten.take 100000 ++ truncationMarker ++ exitSuffix 0 := by
  have hsplit : bigChunks =
      List.replicate 24 (List.replicate 4095 'a') ++ [List.replicate 4095 'a'] := by
    rw [bigChunks]
    exact List.replicate_succ' 24 (List.replicate 4095 'a')
  have hjoin24 : ((List.replicate 24 (List.replicate 4095 'a') : List Chars).flatten).length
      = 98280 := by
    rw [join_replicate_length, List.length_replicate]
  have hcap : bashCapture [] bigChunks =
      ((List.replicate 24 (List.replicate 4095 'a') : List Chars).flatten ++
        List.replicate 4095 'a') ++ truncationMarker := by
    rw [hsplit, bashCapture_prefix _ _ [] (by rw [List.length_nil, hjoin24]; omega),
      List.nil_append,
      bashCapture_single _ _ (by rw [List.length_append, hjoin24, List.length_replicate]; omega)]
  have hres : (execute_bash ['y'] bigBash).2 = bashCapture [] bigChunks ++ exitSuffix 0 := rfl
  have hmarker : truncationMarker.length = 25 := by decide
  have hexit : (exitSuffix 0).length = 15 := by decide
  have hjoin25 : (bigChunks.flatten).length = 102375 := by
    rw [bigChunks, join_replicate_length, List.length_replicate]
  have hlen2 : (execute_bash ['y'] bigBash).2.length = 102415 := by
    rw [hres, hcap, List.length_append, List.length_append, List.length_append, hjoin24,
      List.length_replicate, hmarker, hexit]
  have hlenRHS : (bigChunks.flatten.take 100000 ++ truncationMarker ++ exitSuffix 0).length
      = 100040 := by
    rw [List.length_append, List.length_append, List.length_take, hjoin25, hmarker, hexit]
    omega
  refine ⟨?_, hlen2, ?_⟩
  · intro c hc
    rw [show bigBash.chunks = bigChunks from rfl, bigChunks, List.mem_replicate] at hc
    rw [hc.2]
    refine ⟨?_, by rw [List.length_replicate]⟩
    intro hnil
    have := congrArg List.length hnil
    rw [List.length_replicate, List.length_nil] at this
    omega
  · intro hcontra
    rw [hcontra, hlenRHS] at hlen2
    omega

end OpenRouter

namespace OpenRouter

theorem fmtLine_length_pos (n : Int) (line : Chars) : 1 ≤ (fmtLine n line).length := by
  simp only [fmtLine, List.length_append, List.length_cons]
  omega

theorem fmtLine_length (n : Int) (line : Chars) :
    (fmtLine n line).length =
      (6 - (toString n).data.length) + (toString n).data.length + line.length + 2 := by
  rw [fmtLine, rightJustify6, List.length_append, List.length_append, List.length_cons,
    List.length_append, List.length_cons, List.length_nil, List.length_replicate]
  omega

theorem renderFrom_length_ge (lines : List Chars) :
    ∀ n : Int, lines.length ≤ (renderFrom lines n).length := by
  induction lines with
  | nil => simp [renderFrom]
  | cons l rest ih =>
    intro n
    simp only [renderFrom, List.length_append, List.length_cons]
    have h1 := fmtLine_length_pos n l
    have h2 := ih (n + 1)
    omega

theorem renderFrom_ne_nil (l : Chars) (rest : List Chars) (n : Int) :
    renderFrom (l :: rest) n ≠ [] := by
  simp only [renderFrom]
  intro h
  have hlen := congrArg List.length h
  simp only [List.length_append, List.length_nil] at hlen
  have := fmtLine_length_pos n l
  omega

/-- The emit phase of the `read_file` loop when every remaining line is in
range, the limit covers them all, and the rendering stays within the
truncation threshold: all lines are emitted. -/
theorem readAux_emit_all :
    ∀ (lines : List Chars) (offset limit n r : Int) (acc : Chars),
      offset ≤ n + 1 → r + lines.length ≤ limit →
      acc.length + (renderFrom lines (n + 1)).length ≤ 100000 →
      readAux offset limit lines n r acc = acc ++ renderFrom lines (n + 1) := by
  intro lines
  induction lines with
  | nil => intro offset limit n r acc _ _ _; simp [readAux, renderFrom]
  | cons l rest ih =>
    intro offset limit n r acc hoff hlim hsz
    simp only [List.length_cons] at hlim
    push_cast at hlim
    simp only [renderFrom, List.length_append] at hsz
    simp only [readAux]
    rw [if_neg (by omega), if_neg (by omega),
      if_neg (by simp only [List.length_append]; omega)]
    rw [ih offset limit (n + 1) (r + 1) (acc ++ fmtLine (n + 1) l) (by omega) (by omega)
      (by simp only [List.length_append]; omega)]
    rw [renderFrom, List.append_assoc]

/-- Claim C1 (amended): for every path writable in the current environment and
every non-empty content whose numbered rendering stays within the
100,000-character truncation threshold, `write_file` answered affirmatively
followed by `read_file` on the same path with default offset and limit
returns the written content rendered line by line — each line prefixed with
its 1-indexed number right-justified to width 6 and a tab, and terminated by
a newline — not the raw written bytes. -/
theorem c1_write_read (answer : Chars) (w : World) (path : String) (content : Chars)
    (haff : answer.head? = some 'y' ∨ answer.head? = some 'Y')
    (hmk : w.mkdirOk path = true) (hop : w.openWriteOk path = true)
    (hwr : w.writeOk path = true) (hne : content ≠ [])
    (hsize : (renderFrom (cppLines content) 1).length ≤ 100000) :
    execute_read_file (execute_write_file answer w path content).1 path none none =
      renderFrom (cppLines content) 1 := by
  obtain ⟨c, cs, rfl⟩ : ∃ c cs, answer = c :: cs := by
    cases answer with
    | nil => simp at haff
    | cons c cs => exact ⟨c, cs, rfl⟩
  have hc : ¬ (c ≠ 'y' ∧ c ≠ 'Y') := by
    rcases haff with h | h <;> simp at h <;> simp [h]
  have hwrite : (execute_write_file (c :: cs) w path content).1 =
      { w with fs := fun q => if q = path then some content else w.fs q } := by
    simp only [execute_write_file, if_neg hc]
    rw [if_neg (by simp [hmk]), if_neg (by simp [hop]), if_neg (by simp [hwr])]
  rw [hwrite]
  have hfs : ({ w with fs := fun q => if q = path then some content else w.fs q } : World).fs path
      = some content := by simp
  simp only [execute_read_file, hfs, if_true, Option.getD]
  have hemit := readAux_emit_all (cppLines content) 1 2147483647 0 0 [] (by omega)
    (by
      have hlen := renderFrom_length_ge (cppLines content) 1
      have : ((cppLines content).length : Int) ≤ 100000 := by
        exact_mod_cast Nat.le_trans hlen hsize
      omega)
    (by simpa using hsize)
  rw [show (0 : Int) + 1 = 1 from rfl] at hemit
  rw [hemit, List.nil_append]
  obtain ⟨c0, rest0, hcont⟩ : ∃ c0 rest0, content = c0 :: rest0 := by
    cases content with
    | nil => exact absurd rfl hne
    | cons c0 rest0 => exact ⟨c0, rest0, rfl⟩
  have hlines : ∃ l ls, cppLines content = l :: ls := by
    rw [hcont, cppLines_cons]
    exact ⟨_, _, rfl⟩
  obtain ⟨l, ls, hl⟩ := hlines
  rw [hl, if_neg (renderFrom_ne_nil l ls 1)]

end OpenRouter

namespace OpenRouter

/-- Witness for C1: writing "hi" to "f" (answer "y", all operations succeed)
and reading it back yields the numbered rendering of "hi". -/
theorem c1_witness :
    (((str "y").head? = some 'y' ∨ (str "y").head? = some 'Y')
      ∧ (allOk fun _ => none).mkdirOk "f" = true
      ∧ (allOk fun _ => none).openWriteOk "f" = true
      ∧ (allOk fun _ => none).writeOk "f" = true
      ∧ str "hi" ≠ []
      ∧ (renderFrom (cppLines (str "hi")) 1).length ≤ 100000)
    ∧ execute_read_file (execute_write_file (str "y") (allOk fun _ => none) "f" (str "hi")).1
        "f" none none = renderFrom (cppLines (str "hi")) 1 := by
  refine ⟨⟨by decide, rfl, rfl, rfl, by decide, by decide⟩, ?_⟩
  exact c1_write_read (str "y") (allOk fun _ => none) "f" (str "hi") (by decide) rfl rfl rfl
    (by decide) (by decide)

/-- Counterexample to C1 as stated: writing "hello" and reading it back does
not return "hello" — it returns the line-numbered listing
"     1\thello\n". -/
theorem c1_counterexample :
    execute_read_file (execute_write_file (str "y") (allOk fun _ => none) "fx" (str "hello")).1
      "fx" none none = str "     1\thello\n"
    ∧ str "     1\thello\n" ≠ str "hello" :=
  ⟨by decide, by decide⟩

end OpenRouter

namespace OpenRouter

/-- The skip phase of the `read_file` loop: lines whose numbers stay below
`offset` are consumed without being emitted. -/
theorem readAux_skip :
    ∀ (pre post : List Chars) (offset limit n r : Int) (acc : Chars),
      (n + pre.length : Int) < offset →
      readAux offset limit (pre ++ post) n r acc =
        readAux offset limit post (n + pre.length) r acc := by
  intro pre
  induction pre with
  | nil => intro post offset limit n r acc _; simp
  | cons l p ih =>
    intro post offset limit n r acc h
    simp only [List.length_cons] at h
    push_cast at h
    simp only [List.cons_append, readAux]
    rw [if_pos (by omega)]
    simp only [List.append_eq]
    rw [ih post offset limit (n + 1) r acc (by omega)]
    congr 1
    simp only [List.length_cons]
    push_cast
    ring

/-- The emit phase of the `read_file` loop when the limit is reached before
the lines run out: exactly `limit - linesRead` further lines are emitted. -/
theorem readAux_emit_limit :
    ∀ (k : Nat) (lines : List Chars) (offset limit n r : Int) (acc : Chars),
      offset ≤ n + 1 → limit = r + k → k ≤ lines.length →
      acc.length + (renderFrom (lines.take k) (n + 1)).length ≤ 100000 →
      readAux offset limit lines n r acc = acc ++ renderFrom (lines.take k) (n + 1) := by
  intro k
  induction k with
  | zero =>
    intro lines offset limit n r acc hoff hlim _ _
    cases lines with
    | nil => simp [readAux, renderFrom]
    | cons l rest =>
      simp only [readAux]
      rw [if_neg (by omega), if_pos (by simp only [Nat.cast_zero] at hlim; omega)]
      simp [renderFrom]
  | succ k ih =>
    intro lines offset limit n r acc hoff hlim hk hsz
    cases lines with
    | nil => simp at hk
    | cons l rest =>
      rw [Nat.cast_succ] at hlim
      simp only [List.take_succ_cons, renderFrom, List.length_append] at hsz
      simp only [readAux]
      rw [if_neg (by omega), if_neg (by omega),
        if_neg (by simp only [List.length_append]; omega)]
      rw [ih rest offset limit (n + 1) (r + 1) (acc ++ fmtLine (n + 1) l) (by omega)
        (by omega) (by simp only [List.length_cons] at hk; omega)
        (by simp only [List.length_append]; omega)]
      rw [List.take_succ_cons, renderFrom, List.append_assoc]

end OpenRouter

namespace OpenRouter

/-- Claim C9 (amended): for every readable 20-line file whose lines 10-14
render within the 100,000-character truncation threshold, `read_file` with
offset 10 and limit 5 returns exactly lines 10 through 14, each prefixed with
its 1-indexed line number right-justified to width 6 followed by a tab. -/
theorem c9_offset_limit_window (w : World) (path : String) (contents : Chars)
    (hfs : w.fs path = some contents)
    (h20 : (cppLines contents).length = 20)
    (hsize : (renderFrom (((cppLines contents).drop 9).take 5) 10).length ≤ 100000) :
    execute_read_file w path (some 10) (some 5) =
      renderFrom (((cppLines contents).drop 9).take 5) 10 := by
  simp only [execute_read_file, hfs, Option.getD]
  have h9 : ((cppLines contents).take 9).length = 9 := by
    rw [List.length_take]
    omega
  have hskip := readAux_skip ((cppLines contents).take 9) ((cppLines contents).drop 9)
    10 5 0 0 [] (by rw [h9]; omega)
  rw [List.take_append_drop] at hskip
  rw [hskip, h9]
  have hd : ((cppLines contents).drop 9).length = 11 := by
    rw [List.length_drop, h20]
  have hemit := readAux_emit_limit 5 ((cppLines contents).drop 9) 10 5 ((0 : Int) + (9 : Nat))
    0 [] (by norm_num) (by norm_num) (by omega)
    (by
      rw [show ((0 : Int) + (9 : Nat)) + 1 = 10 by norm_num]
      simpa using hsize)
  rw [show ((0 : Int) + (9 : Nat)) + 1 = 10 by norm_num] at hemit
  rw [hemit, List.nil_append]
  obtain ⟨l, ls, hl⟩ : ∃ l ls, ((cppLines contents).drop 9).take 5 = l :: ls := by
    cases hx : ((cppLines contents).drop 9).take 5 with
    | nil =>
      have := congrArg List.length hx
      rw [List.length_take, hd] at this
      simp at this
    | cons l ls => exact ⟨l, ls, rfl⟩
  rw [hl, if_neg (renderFrom_ne_nil l ls 10)]

end OpenRouter

namespace OpenRouter

/-- Witness for C9: a 20-line file with single-character lines; reading with
offset 10 and limit 5 yields the rendering of lines 10-14. -/
theorem c9_witness :
    ((allOk fun p => if p = "r9"
        then some (str "a\nb\nc\nd\ne\nf\ng\nh\ni\nj\nk\nl\nm\nn\no\np\nq\nr\ns\nt")
        else none) : World).fs "r9" =
      some (str "a\nb\nc\nd\ne\nf\ng\nh\ni\nj\nk\nl\nm\nn\no\np\nq\nr\ns\nt")
    ∧ (cppLines (str "a\nb\nc\nd\ne\nf\ng\nh\ni\nj\nk\nl\nm\nn\no\np\nq\nr\ns\nt")).length = 20
    ∧ (renderFrom (((cppLines
          (str "a\nb\nc\nd\ne\nf\ng\nh\ni\nj\nk\nl\nm\nn\no\np\nq\nr\ns\nt")).drop 9).take 5)
        10).length ≤ 100000
    ∧ execute_read_file
        (allOk fun p => if p = "r9"
          then some (str "a\nb\nc\nd\ne\nf\ng\nh\ni\nj\nk\nl\nm\nn\no\np\nq\nr\ns\nt")
          else none) "r9" (some 10) (some 5) =
      renderFrom (((cppLines
          (str "a\nb\nc\nd\ne\nf\ng\nh\ni\nj\nk\nl\nm\nn\no\np\nq\nr\ns\nt")).drop 9).take 5)
        10 := by
  refine ⟨by decide, by decide, by decide, ?_⟩
  exact c9_offset_limit_window _ "r9" _ (by decide) (by decide) (by decide)

theorem takeWhile_no_newline (l : Chars) (h : ∀ a ∈ l, a ≠ '\n') :
    l.takeWhile (fun a => a ≠ '\n') = l ∧ l.dropWhile (fun a => a ≠ '\n') = [] := by
  induction l with
  | nil => simp
  | cons c rest ih =>
    have hc : c ≠ '\n' := h c (by simp)
    obtain ⟨h1, h2⟩ := ih (fun a ha => h a (by simp [ha]))
    constructor
    · simp only [List.takeWhile_cons]
      rw [if_pos (by simpa using hc), h1]
    · simp only [List.dropWhile_cons]
      rw [if_pos (by simpa using hc), h2]

theorem split_at_newline (l t : Chars) (h : ∀ a ∈ l, a ≠ '\n') :
    (l ++ '\n' :: t).takeWhile (fun a => a ≠ '\n') = l
    ∧ (l ++ '\n' :: t).dropWhile (fun a => a ≠ '\n') = '\n' :: t := by
  induction l with
  | nil =>
    constructor
    · simp [List.takeWhile_cons]
    · simp [List.dropWhile_cons]
  | cons c rest ih =>
    have hc : c ≠ '\n' := h c (by simp)
    obtain ⟨h1, h2⟩ := ih (fun a ha => h a (by simp [ha]))
    constructor
    · simp only [List.cons_append, List.takeWhile_cons]
      rw [if_pos (by simpa using hc), h1]
    · simp only [List.cons_append, List.dropWhile_cons]
      rw [if_pos (by simpa using hc), h2]

/-- One-step unfolding of `cppLines` for any nonempty stream. -/
theorem cppLines_unfold (s : Chars) (hs : s ≠ []) :
    cppLines s = s.takeWhile (fun a => a ≠ '\n') ::
      cppLines ((s.dropWhile (fun a => a ≠ '\n')).drop 1) := by
  cases s with
  | nil => exact absurd rfl hs
  | cons c rest => exact cppLines_cons c rest

/-- `getline` splitting inverts newline joining, for nonempty newline-free
lines. -/
theorem cppLines_unlines :
    ∀ ls : List Chars, (∀ l ∈ ls, (∀ a ∈ l, a ≠ '\n') ∧ l ≠ []) →
      cppLines (unlines ls) = ls := by
  intro ls
  induction ls with
  | nil => intro _; rfl
  | cons l ls ih =>
    intro h
    obtain ⟨hno, hne⟩ := h l (by simp)
    cases ls with
    | nil =>
      rw [show unlines [l] = l from rfl, cppLines_unfold l hne]
      obtain ⟨h1, h2⟩ := takeWhile_no_newline l hno
      rw [h1, h2]
      rfl
    | cons l2 ls2 =>
      rw [show unlines (l :: l2 :: ls2) = l ++ '\n' :: unlines (l2 :: ls2) from rfl]
      have hsne : l ++ '\n' :: unlines (l2 :: ls2) ≠ [] := by
        cases l <;> simp
      rw [cppLines_unfold _ hsne]
      obtain ⟨h1, h2⟩ := split_at_newline l (unlines (l2 :: ls2)) hno
      rw [h1, h2, List.drop_one, List.tail_cons]
      exact congrArg _ (ih (fun x hx => h x (by simp [hx])))

end OpenRouter

namespace OpenRouter

/-- The first emitted line already pushes the result over the truncation
threshold: the loop appends the marker and stops. -/
theorem readAux_first_overflow (offset limit n r : Int) (l : Chars) (rest : List Chars)
    (acc : Chars) (hoff : ¬ (n + 1 < offset)) (hlim : ¬ (limit ≤ r))
    (hov : 100000 < (acc ++ fmtLine (n + 1) l).length) :
    readAux offset limit (l :: rest) n r acc = (acc ++ fmtLine (n + 1) l) ++ truncationMarker := by
  simp only [readAux]
  rw [if_neg hoff, if_neg hlim, if_pos hov]

theorem renderFrom_length_cons (l : Chars) (rest : List Chars) (n : Int) :
    (renderFrom (l :: rest) n).length =
      (fmtLine n l).length + (renderFrom rest (n + 1)).length := by
  rw [renderFrom, List.length_append]

/-- Counterexample to C9 as stated: a readable 20-line file whose line 10 has
100,000 characters.  Reading with offset 10 and limit 5 emits line 10, which
alone exceeds the truncation threshold, so the result is line 10's rendering
plus the truncation marker — not lines 10 through 14. -/
theorem c9_counterexample :
    (cppLines contents9).length = 20
    ∧ execute_read_file world9 "g" (some 10) (some 5) = fmtLine 10 bigLine ++ truncationMarker
    ∧ execute_read_file world9 "g" (some 10) (some 5) ≠
        renderFrom (((cppLines contents9).drop 9).take 5) 10 := by
  have hlines : cppLines contents9 = lines9 := by
    rw [contents9]
    refine cppLines_unlines lines9 ?_
    intro l hl
    rw [lines9] at hl
    simp only [List.mem_append, List.mem_singleton, List.mem_replicate] at hl
    rcases hl with (hl | hl) | hl
    · rw [hl.2]
      exact ⟨by decide, by decide⟩
    · rw [hl]
      refine ⟨?_, ?_⟩
      · intro a ha
        rw [bigLine, List.mem_replicate] at ha
        rw [ha.2]
        decide
      · rw [bigLine]
        intro hnil
        have := congrArg List.length hnil
        rw [List.length_replicate, List.length_nil] at this
        omega
    · rw [hl.2]
      exact ⟨by decide, by decide⟩
  have hlen20 : lines9.length = 20 := by
    rw [lines9]
    simp
  have hds10 : ((toString (10 : Int)).data).length = 2 := rfl
  have hfmt10 : (fmtLine 10 bigLine).length = 100008 := by
    rw [fmtLine_length, hds10, show bigLine.length = 100000 from by
      rw [bigLine, List.length_replicate]]
  have hmarker : truncationMarker.length = 25 := by decide
  have hassoc : lines9 = List.replicate 9 ['x'] ++ ([bigLine] ++ List.replicate 10 ['x']) := by
    rw [lines9, List.append_assoc]
  have hr : readAux 10 5 lines9 0 0 [] = ([] ++ fmtLine (9 + 1) bigLine) ++ truncationMarker := by
    rw [hassoc]
    have hx9 : (List.replicate 9 (['x'] : Chars)).length = 9 := by simp
    have hskip := readAux_skip (List.replicate 9 ['x']) ([bigLine] ++ List.replicate 10 ['x'])
      10 5 0 0 [] (by rw [hx9]; norm_num)
    rw [hskip, hx9]
    rw [show ((0 : Int) + ((9 : Nat) : Int)) = 9 by norm_num]
    rw [List.singleton_append]
    rw [readAux_first_overflow 10 5 9 0 bigLine (List.replicate 10 ['x']) [] (by norm_num)
      (by norm_num)
      (by
        rw [List.nil_append, show ((9 : Int) + 1) = 10 by norm_num, hfmt10]
        omega)]
  have hread : execute_read_file world9 "g" (some 10) (some 5) =
      fmtLine 10 bigLine ++ truncationMarker := by
    have hfs : world9.fs "g" = some contents9 := rfl
    simp only [execute_read_file, hfs, Option.getD, hlines]
    rw [show ((9 : Int) + 1) = 10 by norm_num] at hr
    rw [hr, List.nil_append]
    rw [if_neg (by
      intro hnil
      have := congrArg List.length hnil
      rw [List.length_append, hfmt10, hmarker, List.length_nil] at this
      omega)]
  have hRHSshape : ((cppLines contents9).drop 9).take 5 = bigLine :: List.replicate 4 ['x'] := by
    rw [hlines, hassoc]
    rfl
  have hRHSlen : (renderFrom (bigLine :: List.replicate 4 ['x']) 10).length = 100044 := by
    have h11 : (fmtLine (10 + 1) (['x'] : Chars)).length = 9 := rfl
    have h12 : (fmtLine (10 + 1 + 1) (['x'] : Chars)).length = 9 := rfl
    have h13 : (fmtLine (10 + 1 + 1 + 1) (['x'] : Chars)).length = 9 := rfl
    have h14 : (fmtLine (10 + 1 + 1 + 1 + 1) (['x'] : Chars)).length = 9 := rfl
    rw [show (List.replicate 4 (['x'] : Chars)) = [['x'], ['x'], ['x'], ['x']] from rfl]
    rw [renderFrom_length_cons, renderFrom_length_cons, renderFrom_length_cons,
      renderFrom_length_cons, renderFrom_length_cons]
    rw [hfmt10, h11, h12, h13, h14,
      show renderFrom [] (10 + 1 + 1 + 1 + 1 + 1) = [] from rfl, List.length_nil]
  refine ⟨by rw [hlines, hlen20], hread, ?_⟩
  intro hcontra
  rw [hread, hRHSshape] at hcontra
  have hlen := congrArg List.length hcontra
  rw [List.length_append, hfmt10, hmarker, hRHSlen] at hlen
  omega

end OpenRouter

namespace OpenRouter

/-- Claim C3 (amended): for every file and NONEMPTY `old_string`: zero
occurrences yield the not-found error without reaching the confirmation
prompt; two or more yield the non-unique error carrying the occurrence count
without prompting; exactly one occurrence prompts, and a non-affirmative
answer yields "Edit skipped by user" with the file byte-for-byte unchanged
(the returned world is the input world). -/
theorem c3_edit_precheck (w : World) (path : String)
    (contents old_string new_string answer : Chars)
    (ho : old_string ≠ []) (hfs : w.fs path = some contents) :
    ((specMatches old_string contents 0).length = 0 →
      execute_edit_file answer w path old_string new_string =
        some (w, str "Error: old_string not found in " ++ path.data, false))
    ∧ (2 ≤ (specMatches old_string contents 0).length →
      execute_edit_file answer w path old_string new_string =
        some (w, str "Error: old_string is not unique in " ++ path.data ++ str " (found "
                 ++ (toString (specMatches old_string contents 0).length).data
                 ++ str " occurrences)", false))
    ∧ ((specMatches old_string contents 0).length = 1 →
      ¬ (answer.head? = some 'y' ∨ answer.head? = some 'Y') →
      execute_edit_file answer w path old_string new_string =
        some (w, str "Edit skipped by user", true)) := by
  have hcl := edit_count contents old_string ho
  refine ⟨fun h0 => ?_, fun h2 => ?_, fun h1 hA => ?_⟩
  · simp only [execute_edit_file, hfs, hcl, h0]
    simp
  · simp only [execute_edit_file, hfs, hcl]
    rw [if_neg (by omega), if_pos (by omega)]
  · simp only [execute_edit_file, hfs, hcl, h1]
    cases answer with
    | nil => simp
    | cons c cs =>
      have hc : c ≠ 'y' ∧ c ≠ 'Y' :=
        ⟨fun h => hA (Or.inl (by simp [h])), fun h => hA (Or.inr (by simp [h]))⟩
      simp [hc]

/-- Witness for C3: file "aba" and old_string "b" (one occurrence), answer
"n": the prompt is reached and denied, the file unchanged. -/
theorem c3_witness :
    (str "b" ≠ []
      ∧ ((allOk fun q => if q = "w3" then some (str "aba") else none) : World).fs "w3" =
          some (str "aba")
      ∧ (specMatches (str "b") (str "aba") 0).length = 1
      ∧ ¬ ((str "n").head? = some 'y' ∨ (str "n").head? = some 'Y'))
    ∧ execute_edit_file (str "n") (allOk fun q => if q = "w3" then some (str "aba") else none)
        "w3" (str "b") (str "c") =
        some ((allOk fun q => if q = "w3" then some (str "aba") else none),
              str "Edit skipped by user", true) := by
  refine ⟨⟨by decide, rfl, by decide, by decide⟩, ?_⟩
  exact (c3_edit_precheck (allOk fun q => if q = "w3" then some (str "aba") else none)
    "w3" (str "aba") (str "b") (str "c") (str "n") (by decide) rfl).2.2 (by decide) (by decide)

/-- Counterexample to C3 as stated: with the empty `old_string` the C++
occurrence scan never advances its position, so `execute_edit_file` never
returns (model: `none`) — none of the three outcomes the claim promises
occurs. -/
theorem c3_counterexample :
    execute_edit_file (str "y") (allOk fun q => if q = "e3" then some (str "x") else none)
      "e3" [] (str "zz") = none
    ∧ ∀ out, execute_edit_file (str "y")
        (allOk fun q => if q = "e3" then some (str "x") else none) "e3" [] (str "zz") ≠
        some out := by
  have h0 : execute_edit_file (str "y")
      (allOk fun q => if q = "e3" then some (str "x") else none) "e3" [] (str "zz") = none := rfl
  exact ⟨h0, fun out h => by rw [h0] at h; exact Option.noConfusion h⟩

/-- Claim C10 (amended): for every file contents and NONEMPTY `old_string`,
the counting loop of `execute_edit_file` computes exactly the greedy
non-overlapping match count (the scan resumes at the end of each match),
remembering the last match position; overlapping repetitions such as "aa" in
"aaa" count as a single occurrence; and on a unique occurrence at position
`p` the applied edit replaces exactly the slice `[p, p + old_string.length)`
— the position of the last counted match. -/
theorem c10_nonoverlapping_scan :
    (∀ contents old_string : Chars, old_string ≠ [] →
      countLoop contents old_string (contents.length + 1) 0 0 none =
        some ((specMatches old_string contents 0).length,
              (specMatches old_string contents 0).getLast?))
    ∧ specMatches (str "aa") (str "aaa") 0 = [0]
    ∧ (∀ (w : World) (path : String) (contents old_string new_string answer : Chars) (p : Nat),
        w.fs path = some contents → old_string ≠ [] →
        specMatches old_string contents 0 = [p] →
        (answer.head? = some 'y' ∨ answer.head? = some 'Y') →
        w.openWriteOk path = true → w.writeOk path = true →
        execute_edit_file answer w path old_string new_string =
          some ({ w with fs := fun q =>
                    if q = path then
                      some (contents.take p ++ new_string ++
                        contents.drop (p + old_string.length))
                    else w.fs q },
                str "Applied edit to " ++ path.data, true)) := by
  refine ⟨fun contents old ho => edit_count contents old ho, by decide, ?_⟩
  intro w path contents old new answer p hfs ho hm hA hop hwr
  have hcl := edit_count contents old ho
  rw [hm] at hcl
  simp only [execute_edit_file, hfs, hcl]
  obtain ⟨c, cs, rfl⟩ : ∃ c cs, answer = c :: cs := by
    cases answer with
    | nil => simp at hA
    | cons c cs => exact ⟨c, cs, rfl⟩
  have hc : ¬ (c ≠ 'y' ∧ c ≠ 'Y') := by
    rcases hA with h | h <;> simp at h <;> simp [h]
  simp [hc, hop, hwr]

/-- Witness for C10: old_string "aa" in contents "aaa" — overlapping
repetitions count once, the scan reports count 1 at position 0, and the
affirmed edit replaces the slice [0, 2). -/
theorem c10_witness :
    (str "aa" ≠ []
      ∧ countLoop (str "aaa") (str "aa") ((str "aaa" : Chars).length + 1) 0 0 none =
          some ((specMatches (str "aa") (str "aaa") 0).length,
                (specMatches (str "aa") (str "aaa") 0).getLast?))
    ∧ execute_edit_file (str "y") (allOk fun q => if q = "w10" then some (str "aaa") else none)
        "w10" (str "aa") (str "b") =
        some ({ (allOk fun q => if q = "w10" then some (str "aaa") else none) with
                  fs := fun q =>
                    if q = "w10" then
                      some ((str "aaa" : Chars).take 0 ++ str "b" ++
                        (str "aaa" : Chars).drop (0 + (str "aa" : Chars).length))
                    else ((allOk fun q =>
                      if q = "w10" then some (str "aaa") else none) : World).fs q },
              str "Applied edit to " ++ ("w10" : String).data, true) := by
  refine ⟨⟨by decide, c10_nonoverlapping_scan.1 (str "aaa") (str "aa") (by decide)⟩, ?_⟩
  exact c10_nonoverlapping_scan.2.2 (allOk fun q => if q = "w10" then some (str "aaa") else none)
    "w10" (str "aaa") (str "aa") (str "b") (str "y") 0 rfl (by decide) (by decide)
    (by decide) rfl rfl

/-- Counterexample to C10 as stated: with the empty `old_string` the scan
resumes at the end of each (empty) match, i.e. at the same position, and
never terminates — no occurrence count is ever produced. -/
theorem c10_counterexample :
    execute_edit_file (str "y") (allOk fun q => if q = "e10" then some (str "ab") else none)
      "e10" [] (str "z") = none
    ∧ ∀ out, execute_edit_file (str "y")
        (allOk fun q => if q = "e10" then some (str "ab") else none) "e10" [] (str "z") ≠
        some out := by
  have h0 : execute_edit_file (str "y")
      (allOk fun q => if q = "e10" then some (str "ab") else none) "e10" [] (str "z") = none := rfl
  exact ⟨h0, fun out h => by rw [h0] at h; exact Option.noConfusion h⟩

end OpenRouter
